import Mathlib

/-!
Verification of the kooplearn dual operator-regression module
(`kooplearn/_src/operator_regression/dual.py`) and the jax linear-algebra
helper (`kooplearn/jax/linalg.py`).

Shallow embedding conventions:
* Dense real matrices are `Matrix (Fin n) (Fin m) ℚ` (for the exactly
  executable, decidable parts) or `Matrix (Fin n) (Fin m) ℝ` / `ℂ` where
  the source computes square roots or complex powers.
* Complex eigenvalue/eigenvector data produced by the solvers feeding the
  reduced-rank-regression filtering pipeline is represented by `CQ`,
  rational complex pairs, so that the filtering logic stays decidable.
* External numeric primitives (scipy `eig`/`eigs`/`eigh`/`eigsh`,
  `pinvh`, `cho_solve`, numpy `argsort`, the helpers `topk`,
  `fuzzy_parse_complex`, `weighted_norm`, `_rank_reveal`,
  `randomized_svd`) are passed to each model as oracle data/functions, or
  — where a claim depends on them — modelled from the spec, as flagged in
  the corresponding doc comment.  The logic written out in `dual.py`
  itself is always translated directly.
* Python exceptions become `Except String`; the value `None` returned by
  `np.fill_diagonal` becomes `Option.none`; in-place mutation is explicit
  state passing (the function returns the new state of its argument).
-/

namespace Kooplearn

open scoped Matrix
open Classical

/-- Rational complex number: the shape of one entry of the complex arrays
(`sigma_sq`, `vecs`) returned by the eigensolvers in
`fit_reduced_rank_regression`. -/
structure CQ where
  re : ℚ
  im : ℚ
deriving DecidableEq, Repr

/-- Line 56 of `dual.py`:
`np.logical_or(np.real(sigma_sq) < 0, np.imag(sigma_sq) != 0)`,
for a single eigenvalue. -/
def CQ.isInvalidEig (z : CQ) : Bool :=
  decide (z.re < 0) || decide (z.im ≠ 0)

/-- Squared magnitude of a rational complex number.  Comparing squared
magnitudes is equivalent to comparing the magnitudes `np.abs` computes,
since `Real.sqrt` is monotone. -/
def CQ.normSq (z : CQ) : ℚ :=
  z.re * z.re + z.im * z.im

/-- Modelled from the spec: `topk` (`kooplearn/_src/utils.py`, not under
`src/`), as used on line 52 of `dual.py` to sort the generalized
eigenvalues (paired with their eigenvector columns) by descending
magnitude: "Sort by magnitude descending". -/
def sortDescMag (pairs : List (CQ × List CQ)) : List (CQ × List CQ) :=
  pairs.insertionSort (fun p q => q.1.normSq ≤ p.1.normSq)

/-- Lines 56-72 of `dual.py` (`fit_reduced_rank_regression`): build the
invalidity mask over the magnitude-sorted eigenvalues; if any entry is
invalid, keep the prefix of length `min first_invalid rank`
(`np.argmax` of a boolean mask returns the index of its first `True`);
otherwise keep the first `rank` entries.  The list pairs each eigenvalue
with its eigenvector column, mirroring the parallel indexing of
`sigma_sq` and `vecs`. -/
def rrrInvalidFilter (pairs : List (CQ × List CQ)) (rank : ℕ) :
    List (CQ × List CQ) :=
  if pairs.any (fun p => p.1.isInvalidEig) then
    pairs.take (min (pairs.findIdx (fun p => p.1.isInvalidEig)) rank)
  else
    pairs.take rank

/-- Lines 50-72 of `dual.py`: the full filtering procedure of
`fit_reduced_rank_regression` — magnitude sort followed by the
first-invalid truncation. -/
def fitRRRFilterSort (sigma_sq : List CQ) (vecs : List (List CQ))
    (rank : ℕ) : List (CQ × List CQ) :=
  rrrInvalidFilter (sortDescMag (sigma_sq.zip vecs)) rank

/-- Lines 73-79 of `dual.py`: `assert np.all(np.imag(vecs_filtered) == 0)`
followed by `vecs_filtered = np.real(vecs_filtered)`.  A failing Python
`assert` aborts the call with `AssertionError`, modelled as
`Except.error`; on success the real parts are taken. -/
def fitRRRAssertReal (vecs_filtered : List (List CQ)) :
    Except String (List (List ℚ)) :=
  if vecs_filtered.all (fun col => col.all (fun z => decide (z.im = 0))) then
    Except.ok (vecs_filtered.map (fun col => col.map CQ.re))
  else
    Except.error "The eigenvectors should be real. Decrease the rank or increase the regularization strength."

/-- Lines 29-97 of `dual.py`, `fit_reduced_rank_regression`, restricted to
the failure-relevant pipeline: solver dispatch (lines 44-49: `if
svd_solver == "arnoldi": ... else:  # 'full'` — note there is no unknown-
tag branch), the filtering procedure, and the realness assertion.  The
eigensolver calls (`scipy.sparse.linalg.eigs` / `scipy.linalg.eig`) are
supplied as oracle results which, like any scipy call, may themselves
fail (`Except.error`, propagated).  The final normalization (lines
85-93), a rescaling of the retained eigenvectors raising no exceptions,
and the pure logging steps are omitted. -/
def fit_reduced_rank_regression
    (arnoldi full : Except String (List CQ × List (List CQ)))
    (svd_solver : String) (rank : ℕ) :
    Except String (List (List ℚ) × List CQ) :=
  (if svd_solver = "arnoldi" then arnoldi else full).bind fun sv =>
    let filtered := fitRRRFilterSort sv.1 sv.2 rank
    (fitRRRAssertReal (filtered.map Prod.snd)).map fun realVecs =>
      (realVecs, filtered.map Prod.fst)

/-- Reciprocal square root with the zero guard of the spec's RankReveal
component: "zero eigenvalue → reciprocal 0, never infinity/NaN". -/
noncomputable def rankRevealRsqrt (v : ℝ) : ℝ :=
  if v = 0 then 0 else (Real.sqrt v)⁻¹

/-- Modelled from the spec: `_rank_reveal` (`kooplearn/_src/linalg.py`,
not under `src/`), the RankReveal component of §4.2: "sort descending by
magnitude; retain only entries that are valid per the caller's validity
predicate (strictly positive for symmetric problems); keep the first
min(r, #valid)"; outputs are the selected eigenvectors, the selected
eigenvalues and their reciprocal square roots.  It is a total function:
rank deficiency is a warning, never a failure. -/
noncomputable def rank_reveal (values : List ℝ) (vectors : List (List ℝ))
    (rank : ℕ) : List (List ℝ) × List ℝ × List ℝ :=
  let sorted := (values.zip vectors).insertionSort (fun p q => |q.1| ≤ |p.1|)
  let kept := (sorted.filter (fun p => decide (0 < p.1))).take rank
  (kept.map Prod.snd, kept.map Prod.fst, kept.map (fun p => rankRevealRsqrt p.1))

/-- Line 179 / 274 / 300 of `dual.py`: `np.sqrt(dim) * vectors *
rsqrt_values` — rescale each retained eigenvector column by `√dim` times
its eigenvalue's reciprocal square root. -/
noncomputable def pcrRescale (dim : ℕ) (cols : List (List ℝ))
    (rsqrt_values : List ℝ) : List (List ℝ) :=
  (cols.zip rsqrt_values).map fun p => p.1.map fun x => Real.sqrt dim * x * p.2

/-- Lines 159-180 of `dual.py`, `fit_principal_component_regression`:
`rank = None` defaults to the matrix dimension; `assert rank <= dim`
(a failing assert aborts the call); solver dispatch over
`{"arnoldi", "full"}` raising `ValueError` on any other tag; then the
external `_rank_reveal`, the rescaling, and `return vectors, vectors`.
The eigensolver results (`eigsh` / `eigh` on the regularized kernel) are
oracle inputs that may themselves fail. -/
noncomputable def fit_principal_component_regression (dim : ℕ)
    (rank : Option ℕ) (svd_solver : String)
    (arnoldi full : Except String (List ℝ × List (List ℝ))) :
    Except String (List (List ℝ) × List (List ℝ)) :=
  let r := rank.getD dim
  if dim < r then
    Except.error ("Rank too high. The maximum value for this problem is " ++ toString dim)
  else
    (if svd_solver = "arnoldi" then arnoldi
     else if svd_solver = "full" then full
     else Except.error ("Unknown svd_solver " ++ svd_solver)).map fun sv =>
      let rr := rank_reveal sv.1 sv.2 r
      let vecs := pcrRescale dim rr.1 rr.2.2
      (vecs, vecs)

/-- Lines 281-304 of `dual.py`, `fit_rand_principal_component_regression`:
the external `randomized_svd` of the regularized kernel (oracle input,
may fail and is then propagated; its output is the pair
(vectors, values)), then `_rank_reveal`, the rescaling, and
`return vectors, vectors`. -/
noncomputable def fit_rand_principal_component_regression (dim : ℕ)
    (rank : ℕ)
    (randomized_svd : Except String (List (List ℝ) × List ℝ)) :
    Except String (List (List ℝ) × List (List ℝ)) :=
  randomized_svd.map fun sv =>
    let rr := rank_reveal sv.2 sv.1 rank
    let vecs := pcrRescale dim rr.1 rr.2.2
    (vecs, vecs)

/-- Lines 208-221 and 258-271 of `dual.py`: the identical solver dispatch
of `fit_nystroem_reduced_rank_regression` and
`fit_nystroem_principal_component_regression` — `"full"`, then
`"arnoldi"`, else `raise ValueError(f"Unknown svd_solver ...")`.  The
generalized eigensolver results are oracle inputs that may themselves
fail. -/
def nystroem_solver_dispatch {σ : Type} (svd_solver : String)
    (full arnoldi : Except String σ) : Except String σ :=
  if svd_solver = "full" then full
  else if svd_solver = "arnoldi" then arnoldi
  else Except.error ("Unknown svd_solver " ++ svd_solver)

/-- Lines 227-234 of `dual.py` (`fit_nystroem_reduced_rank_regression`):
if the pivoted factorization returned fewer than `rank` columns, append
explicit zero columns and `assert vectors.shape[1] == rank`.  The
columns are length-`n` vectors; the assert is modelled as a potential
`Except.error`. -/
def nystroemZeroPad (n rank : ℕ) (cols : List (List ℚ)) :
    Except String (List (List ℚ)) :=
  if cols.length < rank then
    let padded := cols ++ List.replicate (rank - cols.length) (List.replicate n (0 : ℚ))
    if padded.length = rank then Except.ok padded
    else Except.error "assert vectors.shape[1] == rank"
  else Except.ok cols

/-- `np.linalg.matrix_power` as called on line 322 of `dual.py`: for a
non-negative exponent, the ordinary matrix power; for a negative
exponent, numpy first inverts the matrix (raising `LinAlgError`, i.e.
`none`, exactly when it is singular) and raises the inverse to the
absolute value of the exponent. -/
noncomputable def matrixPower {r : ℕ} (M : Matrix (Fin r) (Fin r) ℝ)
    (k : ℤ) : Option (Matrix (Fin r) (Fin r) ℝ) :=
  if 0 ≤ k then some (M ^ k.toNat)
  else if M.det = 0 then none
  else some (M⁻¹ ^ (-k).toNat)

/-- Line 321 of `dual.py`:
`V_K_XY_U = (dim**-1) * np.linalg.multi_dot([V.T, K_YX, U])` with
`dim = U.shape[0] = n`. -/
noncomputable def transition_matrix {n r : ℕ}
    (U V : Matrix (Fin n) (Fin r) ℝ) (K_YX : Matrix (Fin n) (Fin n) ℝ) :
    Matrix (Fin r) (Fin r) ℝ :=
  ((n : ℝ)⁻¹) • (Vᵀ * K_YX * U)

/-- Lines 307-323 of `dual.py`, `predict`.  `num_steps` is a Python
integer, so it is modelled as `ℤ`; the function performs no validation
of it.  `dim = U.shape[0] = n`; `dim ** (-0.5)` is the real power
`(n : ℝ) ^ (-(1/2) : ℝ)`. -/
noncomputable def predict {n m q r : ℕ} (num_steps : ℤ)
    (U V : Matrix (Fin n) (Fin r) ℝ) (K_YX : Matrix (Fin n) (Fin n) ℝ)
    (K_Xin_X : Matrix (Fin m) (Fin n) ℝ)
    (obs_train_Y : Matrix (Fin n) (Fin q) ℝ) :
    Option (Matrix (Fin m) (Fin q) ℝ) :=
  let rsqrt_dim : ℝ := (n : ℝ) ^ (-(1 / 2) : ℝ)
  let K_dot_U := rsqrt_dim • (K_Xin_X * U)
  let V_dot_obs := rsqrt_dim • (Vᵀ * obs_train_Y)
  (matrixPower (transition_matrix U V K_YX) (num_steps - 1)).map fun M =>
    K_dot_U * M * V_dot_obs

/-- Inputs of `estimator_eig` (lines 326-355 of `dual.py`): the four
matrices of the source signature together with the results of the
external primitives it calls — `scipy.linalg.eig` on the compressed
operator (eigenvalues `values`, left eigenvectors `vl`, right
eigenvectors `vr`), the external helpers `fuzzy_parse_complex`
(`kooplearn/_src/utils.py`) and `weighted_norm`
(`kooplearn/_src/linalg.py`, per-column weighted norm), and numpy's
`argsort` (a sorting permutation). -/
structure EstimatorEigArgs (n r : ℕ) where
  U : Matrix (Fin n) (Fin r) ℝ
  V : Matrix (Fin n) (Fin r) ℝ
  K_X : Matrix (Fin n) (Fin n) ℝ
  K_YX : Matrix (Fin n) (Fin n) ℝ
  values : Fin r → ℂ
  vl : Matrix (Fin r) (Fin r) ℂ
  vr : Matrix (Fin r) (Fin r) ℂ
  fuzzy_parse : (Fin r → ℂ) → Fin r → ℂ
  argsort : (Fin r → ℂ) → Fin r → Fin r
  weighted_norm : Matrix (Fin r) (Fin r) ℂ → Matrix (Fin r) (Fin r) ℝ → Fin r → ℝ

/-- Line 335 of `dual.py`:
`W_YX = np.linalg.multi_dot([V.T, r_dim * K_YX, U])`, `r_dim = n⁻¹`. -/
noncomputable def W_YX {n r : ℕ} (a : EstimatorEigArgs n r) :
    Matrix (Fin r) (Fin r) ℝ :=
  ((n : ℝ)⁻¹) • (a.Vᵀ * a.K_YX * a.U)

/-- Line 336 of `dual.py`:
`W_X = np.linalg.multi_dot([U.T, r_dim * K_X, U])`. -/
noncomputable def W_X {n r : ℕ} (a : EstimatorEigArgs n r) :
    Matrix (Fin r) (Fin r) ℝ :=
  ((n : ℝ)⁻¹) • (a.Uᵀ * a.K_X * a.U)

/-- Lines 339-344 of `dual.py`: eigenvalues after `fuzzy_parse_complex`
and the ascending sort `r_perm = np.argsort(values)`. -/
def ee_values_sorted {n r : ℕ} (a : EstimatorEigArgs n r) : Fin r → ℂ :=
  fun j => a.fuzzy_parse a.values (a.argsort (a.fuzzy_parse a.values) j)

/-- Line 341 of `dual.py`: `vr = vr[:, r_perm]`. -/
def ee_vr_sorted {n r : ℕ} (a : EstimatorEigArgs n r) :
    Matrix (Fin r) (Fin r) ℂ :=
  Matrix.of fun i j => a.vr i (a.argsort (a.fuzzy_parse a.values) j)

/-- Lines 342-343 of `dual.py`: `l_perm = np.argsort(values.conj())`,
`vl = vl[:, l_perm]`. -/
def ee_vl_sorted {n r : ℕ} (a : EstimatorEigArgs n r) :
    Matrix (Fin r) (Fin r) ℂ :=
  Matrix.of fun i j =>
    a.vl i (a.argsort (fun j2 => (starRingEnd ℂ) (a.fuzzy_parse a.values j2)) j)

/-- Line 347 of `dual.py`: `norm_r = weighted_norm(vr, W_X)` — the
per-column norm of the sorted right eigenvectors under the
`W_X`-induced quadratic form, computed by the external helper. -/
noncomputable def ee_norm_r {n r : ℕ} (a : EstimatorEigArgs n r) :
    Fin r → ℝ :=
  a.weighted_norm (ee_vr_sorted a) (W_X a)

/-- Line 348 of `dual.py`: one entry of
`np.where(norm_r == 0.0, 0.0, norm_r**-1)`. -/
noncomputable def whereRecip (x : ℝ) : ℝ :=
  if x = 0 then 0 else x⁻¹

/-- Line 353 of `dual.py`: one entry of
`np.where(np.abs(norm_l) == 0, 0.0, norm_l**-1)`. -/
noncomputable def whereRecipC (z : ℂ) : ℂ :=
  if Complex.abs z = 0 then 0 else z⁻¹

/-- Lines 348-349 of `dual.py`: `vr = vr * r_normr` — every column of the
sorted right eigenvectors is rescaled by the guarded reciprocal of its
weighted norm. -/
noncomputable def ee_vr_normalized {n r : ℕ} (a : EstimatorEigArgs n r) :
    Matrix (Fin r) (Fin r) ℂ :=
  Matrix.of fun i j => ee_vr_sorted a i j * (whereRecip (ee_norm_r a j) : ℂ)

/-- Line 352 of `dual.py`:
`norm_l = np.diag(np.linalg.multi_dot([vl.T, W_YX, vr]))`. -/
noncomputable def ee_norm_l {n r : ℕ} (a : EstimatorEigArgs n r) :
    Fin r → ℂ :=
  fun j =>
    ((ee_vl_sorted a)ᵀ * (W_YX a).map Complex.ofReal * ee_vr_normalized a) j j

/-- Lines 353-354 of `dual.py`: `vl = vl * r_norm_l` — every column of the
sorted left eigenvectors is rescaled by the guarded reciprocal of its
biorthogonality diagonal entry. -/
noncomputable def ee_vl_rescaled {n r : ℕ} (a : EstimatorEigArgs n r) :
    Matrix (Fin r) (Fin r) ℂ :=
  Matrix.of fun i j => ee_vl_sorted a i j * whereRecipC (ee_norm_l a j)

/-- Lines 326-355 of `dual.py`, `estimator_eig`: returns the sorted
eigenvalues and the left/right eigenvectors expressed back in the dual
basis, `V @ vl` and `U @ vr`. -/
noncomputable def estimator_eig {n r : ℕ} (a : EstimatorEigArgs n r) :
    (Fin r → ℂ) × Matrix (Fin n) (Fin r) ℂ × Matrix (Fin n) (Fin r) ℂ :=
  (ee_values_sorted a,
   (a.V.map Complex.ofReal) * ee_vl_rescaled a,
   (a.U.map Complex.ofReal) * ee_vr_normalized a)

/-- Lines 140-143 of `dual.py` (`fit_rand_reduced_rank_regression`):
`try: sigma_sq, Q = eigh(F_1, F_0) except LinAlgError: sigma_sq, Q =
eig(pinvh(F_0) @ F_1)`.  The generalized symmetric eigensolver result is
an oracle: `none` models the caught `LinAlgError`; the ordinary
eigensolver `eig` and `pinvh` are oracle functions.  A real `eigh`
result is cast to the complex arrays the subsequent code operates on. -/
noncomputable def rand_rrr_eig_step {l : ℕ}
    (genEigh : Option ((Fin l → ℝ) × Matrix (Fin l) (Fin l) ℝ))
    (eig : Matrix (Fin l) (Fin l) ℝ → (Fin l → ℂ) × Matrix (Fin l) (Fin l) ℂ)
    (pinvh : Matrix (Fin l) (Fin l) ℝ → Matrix (Fin l) (Fin l) ℝ)
    (F_0 F_1 : Matrix (Fin l) (Fin l) ℝ) :
    (Fin l → ℂ) × Matrix (Fin l) (Fin l) ℂ :=
  match genEigh with
  | some p => (fun j => (p.1 j : ℂ), p.2.map Complex.ofReal)
  | none => eig (pinvh F_0 * F_1)

/-- Lines 145-156 of `dual.py`: given the eigenpairs of the small
problem, normalize the columns by `Q_norm**-0.5`
(`Q_norm = np.sum(Q.conj() * (F_0 @ Q), axis=0)`), select the top-`rank`
eigenvalue indices by real value (the external `topk`, an oracle
permutation-selection function), rescale by `dim**0.5`, and return the
real parts of `KOm @ Q` and `KOmp @ Q`. -/
noncomputable def rand_rrr_postprocess {dimn l rank : ℕ}
    (F_0 : Matrix (Fin l) (Fin l) ℝ)
    (KOm KOmp : Matrix (Fin dimn) (Fin l) ℝ)
    (topkIdx : (Fin l → ℝ) → Fin rank → Fin l)
    (sigma_sq : Fin l → ℂ) (Q : Matrix (Fin l) (Fin l) ℂ) :
    Matrix (Fin dimn) (Fin rank) ℝ × Matrix (Fin dimn) (Fin rank) ℝ :=
  let Q_norm : Fin l → ℂ :=
    fun j => ∑ i, (starRingEnd ℂ) (Q i j) * ((F_0.map Complex.ofReal) * Q) i j
  let Q1 : Matrix (Fin l) (Fin l) ℂ :=
    Matrix.of fun i j => Q i j * (Q_norm j) ^ (-(1 / 2) : ℂ)
  let idxs : Fin rank → Fin l := topkIdx fun j => (sigma_sq j).re
  let Q2 : Matrix (Fin l) (Fin rank) ℂ := Matrix.of fun i j => Q1 i (idxs j)
  let Uc := ((dimn : ℝ) ^ ((1 : ℝ) / 2)) • ((KOm.map Complex.ofReal) * Q2)
  let Vc := ((dimn : ℝ) ^ ((1 : ℝ) / 2)) • ((KOmp.map Complex.ofReal) * Q2)
  (Uc.map Complex.re, Vc.map Complex.re)

/-- Lines 100-156 of `dual.py`, `fit_rand_reduced_rank_regression`,
restricted to the generation of `U` and `V` from the sketched matrices
`F_0`, `F_1`, `KOm`, `KOmp` (lines 139-156).  The sketch construction
itself (lines 114-137: Cholesky factorization, random range finder,
power iteration) uses only external primitives and the random stream,
so the sketched matrices are oracle inputs here. -/
noncomputable def fit_rand_reduced_rank_regression {dimn l rank : ℕ}
    (F_0 F_1 : Matrix (Fin l) (Fin l) ℝ)
    (KOm KOmp : Matrix (Fin dimn) (Fin l) ℝ)
    (genEigh : Option ((Fin l → ℝ) × Matrix (Fin l) (Fin l) ℝ))
    (eig : Matrix (Fin l) (Fin l) ℝ → (Fin l → ℂ) × Matrix (Fin l) (Fin l) ℂ)
    (pinvh : Matrix (Fin l) (Fin l) ℝ → Matrix (Fin l) (Fin l) ℝ)
    (topkIdx : (Fin l → ℝ) → Fin rank → Fin l) :
    Matrix (Fin dimn) (Fin rank) ℝ × Matrix (Fin dimn) (Fin rank) ℝ :=
  let sq := rand_rrr_eig_step genEigh eig pinvh F_0 F_1
  rand_rrr_postprocess F_0 KOm KOmp topkIdx sq.1 sq.2

/-- `jnp.vdot`: `∑ i, conj (a i) * b i`. -/
noncomputable def vdotC {n : ℕ} (a b : Fin n → ℂ) : ℂ :=
  ∑ i, (starRingEnd ℂ) (a i) * b i

/-- Lines 8-12 of `kooplearn/jax/linalg.py`, `spd_norm`:
`sqrt(0.5 * (vdot(vec, M @ vec + M.T @ vec)).real)` where the matrix is
real and the vector may be complex. -/
noncomputable def spd_norm {n : ℕ} (vec : Fin n → ℂ)
    (spd_matrix : Matrix (Fin n) (Fin n) ℝ) : ℝ :=
  let M := spd_matrix.map Complex.ofReal
  Real.sqrt (0.5 * (vdotC vec (M.mulVec vec + Mᵀ.mulVec vec)).re)

/-- Line 14 of `kooplearn/jax/linalg.py`: `batch_spd_norm`, the
per-column vectorization of `spd_norm`. -/
noncomputable def batch_spd_norm {n r : ℕ}
    (vecs : Matrix (Fin n) (Fin r) ℂ)
    (spd_matrix : Matrix (Fin n) (Fin n) ℝ) : Fin r → ℝ :=
  fun j => spd_norm (fun i => vecs i j) spd_matrix

/-- The weighted norm of the spec sentence for `spd_norm`: "the square
root of the real part of `vᴴ·((M+Mᵀ)/2)·v`", the norm under the
Hermitian symmetrization of the weighting matrix. -/
noncomputable def spdNormSymmetrized {n : ℕ} (vec : Fin n → ℂ)
    (spd_matrix : Matrix (Fin n) (Fin n) ℝ) : ℝ :=
  Real.sqrt
    (vdotC vec
      ((((2 : ℝ)⁻¹ • (spd_matrix + spd_matrixᵀ)).map Complex.ofReal).mulVec
        vec)).re

/-- Lines 15-26 of `dual.py`, `regularize`.  The in-place branch returns
`np.fill_diagonal(M, M.diagonal() + reg * M.shape[0])`, i.e. the value
`None`, after overwriting the diagonal of `M`; the default branch
returns `M + (M.shape[0] * reg) * I` and leaves `M` untouched.  The
model returns the pair (returned value, state of the argument `M` after
the call). -/
def regularize {n : ℕ} (M : Matrix (Fin n) (Fin n) ℚ) (reg : ℚ)
    (inplace : Bool) :
    Option (Matrix (Fin n) (Fin n) ℚ) × Matrix (Fin n) (Fin n) ℚ :=
  if inplace then
    (none, Matrix.of fun i j => if i = j then M i j + reg * (n : ℚ) else M i j)
  else
    (some (M + ((n : ℚ) * reg) • (1 : Matrix (Fin n) (Fin n) ℚ)), M)

/-- Whether an `Except` computation succeeded (a Python call that did not
raise). -/
def isOkE {ε α : Type} : Except ε α → Bool
  | Except.ok _ => true
  | Except.error _ => false

/-- Concrete instantiation of the `estimator_eig` inputs used to witness
the zero-norm guards: zero eigenvector matrices and a weighted-norm
oracle returning zero. -/
noncomputable def eeWitnessArgs : EstimatorEigArgs 1 1 where
  U := !![1]
  V := !![1]
  K_X := !![1]
  K_YX := !![1]
  values := fun _ => 0
  vl := 0
  vr := 0
  fuzzy_parse := fun v => v
  argsort := fun _ => id
  weighted_norm := fun _ _ _ => 0

theorem takeWhile_not_eq_take_findIdx {α : Type} (p : α → Bool)
    (l : List α) : l.takeWhile (fun a => !p a) = l.take (l.findIdx p) := by
  induction l with
  | nil => rfl
  | cons a l ih =>
    by_cases h : p a
    · simp [List.takeWhile_cons, List.findIdx_cons, h]
    · simp [List.takeWhile_cons, List.findIdx_cons, h, ih]

theorem rrrInvalidFilter_eq (pairs : List (CQ × List CQ)) (rank : ℕ) :
    rrrInvalidFilter pairs rank
      = (pairs.takeWhile (fun p => !p.1.isInvalidEig)).take rank := by
  unfold rrrInvalidFilter
  by_cases h : pairs.any fun p => p.1.isInvalidEig
  · rw [if_pos h, takeWhile_not_eq_take_findIdx, List.take_take]
    rw [min_comm]
  · rw [if_neg h]
    have h2 : ∀ x ∈ pairs, x.1.isInvalidEig = false := by
      intro x hx
      by_contra hc
      exact h (List.any_eq_true.mpr ⟨x, hx, by simpa using hc⟩)
    rw [List.takeWhile_eq_self_iff.mpr (by intro x hx; simp [h2 x hx])]

/-- C1: in `fit_reduced_rank_regression`, after sorting the generalized
eigenvalues by descending magnitude, the retained entries are exactly
the sorted prefix ending strictly before the first invalid eigenvalue
(negative real part or non-zero imaginary part), capped at `rank`: the
filter never skips an invalid entry to retain a later valid one, keeps
at most `rank` entries, and every retained eigenvalue is valid. -/
theorem fit_rrr_first_invalid_truncation (sigma_sq : List CQ)
    (vecs : List (List CQ)) (rank : ℕ) :
    fitRRRFilterSort sigma_sq vecs rank
      = ((sortDescMag (sigma_sq.zip vecs)).takeWhile
          (fun p => !p.1.isInvalidEig)).take rank
    ∧ (fitRRRFilterSort sigma_sq vecs rank).length ≤ rank
    ∧ ∀ p ∈ fitRRRFilterSort sigma_sq vecs rank, p.1.isInvalidEig = false := by
  refine ⟨rrrInvalidFilter_eq _ _, ?_, ?_⟩
  · rw [fitRRRFilterSort, rrrInvalidFilter_eq]
    exact List.length_take_le _ _
  · intro p hp
    rw [fitRRRFilterSort, rrrInvalidFilter_eq] at hp
    have hmem := List.mem_takeWhile_imp (List.take_subset _ _ hp)
    simpa using hmem

/-- Witness for C1 at a concrete input where an invalid eigenvalue
(`-2`, negative real part) is interleaved before a valid one (`1`) in
the magnitude-sorted order: only the leading valid entry survives, and
it satisfies the validity predicate. -/
theorem fit_rrr_first_invalid_truncation_witness :
    (CQ.mk 3 0, [CQ.mk 3 0]) ∈
      fitRRRFilterSort [CQ.mk 1 0, CQ.mk (-2) 0, CQ.mk 3 0]
        [[CQ.mk 1 0], [CQ.mk 2 0], [CQ.mk 3 0]] 3
    ∧ (CQ.mk 3 0, [CQ.mk 3 0]).1.isInvalidEig = false := by
  have hmem : (CQ.mk 3 0, [CQ.mk 3 0]) ∈
      fitRRRFilterSort [CQ.mk 1 0, CQ.mk (-2) 0, CQ.mk 3 0]
        [[CQ.mk 1 0], [CQ.mk 2 0], [CQ.mk 3 0]] 3 := by
    norm_num [fitRRRFilterSort, sortDescMag, rrrInvalidFilter,
      List.insertionSort, List.orderedInsert, CQ.normSq, CQ.isInvalidEig,
      List.findIdx_cons, List.take_succ_cons]
  exact ⟨hmem,
    (fit_rrr_first_invalid_truncation [CQ.mk 1 0, CQ.mk (-2) 0, CQ.mk 3 0]
      [[CQ.mk 1 0], [CQ.mk 2 0], [CQ.mk 3 0]] 3).2.2 _ hmem⟩

theorem list_map_eq_self {α : Type} (l : List α) (f : α → α)
    (h : ∀ x ∈ l, f x = x) : l.map f = l := by
  induction l with
  | nil => rfl
  | cons a l ih =>
    simp only [List.map_cons, h a (List.mem_cons_self a l),
      ih fun x hx => h x (List.mem_cons_of_mem a hx)]

theorem map_mk_re_eq_self (col : List CQ) (h : ∀ z ∈ col, z.im = 0) :
    col.map (fun z => CQ.mk z.re 0) = col := by
  apply list_map_eq_self
  intro z hz
  have him := h z hz
  cases z with
  | mk r i =>
    have : i = 0 := him
    rw [this]

/-- C2: `fit_reduced_rank_regression` raises (its `assert`, returning no
result) exactly when some retained eigenvector entry has a non-zero
imaginary part; when it does not raise, taking real parts loses nothing
(re-attaching zero imaginary parts recovers the input exactly, so no
value is silently coerced).  The zero-padding assert of the Nystrom fit
never fires, and the spec-modelled RankReveal helper used by the PCR
fits is total with the zero-to-zero reciprocal-square-root guard. -/
theorem fit_rrr_imaginary_assert_sole_hard_failure
    (vecsF : List (List CQ)) :
    (isOkE (fitRRRAssertReal vecsF)
       = vecsF.all fun col => col.all fun z => decide (z.im = 0))
    ∧ (∀ out, fitRRRAssertReal vecsF = Except.ok out →
        out.map (fun col => col.map fun x => CQ.mk x 0) = vecsF)
    ∧ (∀ n rank cols, ∃ out, nystroemZeroPad n rank cols = Except.ok out)
    ∧ rankRevealRsqrt 0 = 0 := by
  refine ⟨?_, ?_, ?_, ?_⟩
  · unfold fitRRRAssertReal
    by_cases h : vecsF.all fun col => col.all fun z => decide (z.im = 0)
    · rw [if_pos h, h]
      rfl
    · rw [if_neg h]
      simp only [isOkE]
      exact (Bool.eq_false_iff.mpr (fun hb => h hb)).symm ▸ rfl
  · intro out hout
    unfold fitRRRAssertReal at hout
    by_cases hc : vecsF.all fun col => col.all fun z => decide (z.im = 0)
    · rw [if_pos hc] at hout
      have heq : vecsF.map (fun col => col.map CQ.re) = out := Except.ok.inj hout
      rw [← heq, List.map_map]
      apply list_map_eq_self
      intro col hcol
      have hall : ∀ z ∈ col, z.im = 0 := by
        intro z hz
        have h1 := (List.all_eq_true.mp hc) col hcol
        have h2 := (List.all_eq_true.mp h1) z hz
        exact of_decide_eq_true h2
      simpa [Function.comp, List.map_map] using map_mk_re_eq_self col hall
    · rw [if_neg hc] at hout
      exact Except.noConfusion hout
  · intro n rank cols
    unfold nystroemZeroPad
    by_cases h : cols.length < rank
    · rw [if_pos h]
      dsimp only
      have hlen : (cols ++ List.replicate (rank - cols.length)
          (List.replicate n (0 : ℚ))).length = rank := by
        simp only [List.length_append, List.length_replicate]
        omega
      rw [if_pos hlen]
      exact ⟨_, rfl⟩
    · rw [if_neg h]
      exact ⟨_, rfl⟩
  · simp [rankRevealRsqrt]

/-- Witness for C2: on an all-real eigenvector column the assert passes,
and re-attaching zero imaginary parts to the returned real parts
recovers the input unchanged. -/
theorem fit_rrr_imaginary_assert_sole_hard_failure_witness :
    fitRRRAssertReal [[CQ.mk 1 0, CQ.mk 2 0]] = Except.ok [[(1 : ℚ), 2]]
    ∧ ([[(1 : ℚ), 2]]).map (fun col => col.map fun x => CQ.mk x 0)
        = [[CQ.mk 1 0, CQ.mk 2 0]] := by
  have h : fitRRRAssertReal [[CQ.mk 1 0, CQ.mk 2 0]]
      = Except.ok [[(1 : ℚ), 2]] := rfl
  exact ⟨h,
    (fit_rrr_imaginary_assert_sole_hard_failure [[CQ.mk 1 0, CQ.mk 2 0]]).2.1
      _ h⟩

/-- C4 counterexample: `fit_reduced_rank_regression` called with the
unknown solver tag `"bogus"` does **not** fail with an invalid-argument
error — it silently runs the `else` (full) solver branch and returns a
result. -/
theorem fit_rrr_unknown_solver_not_rejected :
    fit_reduced_rank_regression
      (Except.ok ([CQ.mk 1 0], [[CQ.mk 1 0]]))
      (Except.ok ([CQ.mk 1 0], [[CQ.mk 1 0]]))
      "bogus" 1
      = Except.ok ([[(1 : ℚ)]], [CQ.mk 1 0]) := rfl

/-- C4 (amended): `fit_principal_component_regression` and the Nystrom
fits reject an unknown `svd_solver` tag with an immediate
`ValueError` and no result, but `fit_reduced_rank_regression` performs
no such validation: every tag other than `"arnoldi"` is treated exactly
like `"full"`. -/
theorem solver_tag_validation_amended :
    (∀ (arnoldi full : Except String (List CQ × List (List CQ)))
       (tag : String) (rank : ℕ), tag ≠ "arnoldi" →
        fit_reduced_rank_regression arnoldi full tag rank
          = fit_reduced_rank_regression arnoldi full "full" rank)
    ∧ (∀ (dim : ℕ) (rank : Option ℕ) (tag : String)
         (arnoldi full : Except String (List ℝ × List (List ℝ))),
        ¬ dim < rank.getD dim → tag ≠ "arnoldi" → tag ≠ "full" →
        fit_principal_component_regression dim rank tag arnoldi full
          = Except.error ("Unknown svd_solver " ++ tag))
    ∧ (∀ (σ : Type) (tag : String) (full arnoldi : Except String σ),
        tag ≠ "full" → tag ≠ "arnoldi" →
        nystroem_solver_dispatch tag full arnoldi
          = Except.error ("Unknown svd_solver " ++ tag)) := by
  refine ⟨?_, ?_, ?_⟩
  · intro arnoldi full tag rank htag
    unfold fit_reduced_rank_regression
    rw [if_neg htag, if_neg (by decide : ¬("full" : String) = "arnoldi")]
  · intro dim rank tag arnoldi full hdim h1 h2
    unfold fit_principal_component_regression
    rw [if_neg hdim, if_neg h1, if_neg h2]
    rfl
  · intro σ tag full arnoldi h1 h2
    unfold nystroem_solver_dispatch
    rw [if_neg h1, if_neg h2]

/-- Witness for C4 (amended) at the concrete unknown tag `"bogus"`. -/
theorem solver_tag_validation_amended_witness :
    (fit_reduced_rank_regression
        (Except.ok (([] : List CQ), ([] : List (List CQ))))
        (Except.ok (([] : List CQ), ([] : List (List CQ)))) "bogus" 1
      = fit_reduced_rank_regression
        (Except.ok (([] : List CQ), ([] : List (List CQ))))
        (Except.ok (([] : List CQ), ([] : List (List CQ)))) "full" 1)
    ∧ (fit_principal_component_regression 1 (some 1) "bogus"
        (Except.ok (([] : List ℝ), ([] : List (List ℝ))))
        (Except.ok (([] : List ℝ), ([] : List (List ℝ))))
      = Except.error ("Unknown svd_solver " ++ "bogus"))
    ∧ (nystroem_solver_dispatch "bogus" (Except.ok (0 : ℕ)) (Except.ok 0)
      = Except.error ("Unknown svd_solver " ++ "bogus")) :=
  ⟨solver_tag_validation_amended.1 _ _ _ 1 (by decide),
   solver_tag_validation_amended.2.1 1 (some 1) "bogus" _ _ (by decide)
     (by decide) (by decide),
   solver_tag_validation_amended.2.2 ℕ "bogus" _ _ (by decide) (by decide)⟩

/-- C3 counterexample: `predict` called with `num_steps = 0` does not
fail — `np.linalg.matrix_power` with exponent `-1` inverts the
(invertible) transition matrix and a full result is returned. -/
theorem predict_zero_steps_returns_result :
    predict 0 !![(1 : ℝ)] !![(1 : ℝ)] !![(1 : ℝ)] !![(1 : ℝ)] !![(1 : ℝ)]
      = some !![(1 : ℝ)] := by
  have hT : transition_matrix !![(1 : ℝ)] !![(1 : ℝ)] !![(1 : ℝ)]
      = (1 : Matrix (Fin 1) (Fin 1) ℝ) := by
    apply Matrix.ext
    intro i j
    fin_cases i
    fin_cases j
    simp [transition_matrix, Matrix.mul_apply, Fin.sum_univ_one,
      Matrix.one_apply]
  simp only [predict, hT, matrixPower]
  rw [if_neg (by omega : ¬(0 : ℤ) ≤ 0 - 1),
    if_neg (by simp : ¬(1 : Matrix (Fin 1) (Fin 1) ℝ).det = 0)]
  simp only [inv_one, one_pow, Option.map_some']
  congr 1
  apply Matrix.ext
  intro i j
  fin_cases i
  fin_cases j
  simp [Matrix.mul_apply, Fin.sum_univ_one, Real.one_rpow]

/-- C3 (amended): `predict` performs no validation of `num_steps`; it
fails (raises `LinAlgError`, i.e. returns no result) exactly when
`num_steps < 1` **and** the transition matrix is singular — for
`num_steps < 1` with an invertible transition matrix it silently
returns the backward iterate. -/
theorem predict_failure_characterization {n m q r : ℕ} (num_steps : ℤ)
    (U V : Matrix (Fin n) (Fin r) ℝ) (K_YX : Matrix (Fin n) (Fin n) ℝ)
    (K_Xin_X : Matrix (Fin m) (Fin n) ℝ)
    (obs_train_Y : Matrix (Fin n) (Fin q) ℝ) :
    predict num_steps U V K_YX K_Xin_X obs_train_Y = none
      ↔ num_steps < 1 ∧ (transition_matrix U V K_YX).det = 0 := by
  simp only [predict, Option.map_eq_none', matrixPower]
  by_cases h1 : (0 : ℤ) ≤ num_steps - 1
  · rw [if_pos h1]
    have : ¬ num_steps < 1 := by omega
    simp [this]
  · rw [if_neg h1]
    by_cases h2 : (transition_matrix U V K_YX).det = 0
    · rw [if_pos h2]
      have : num_steps < 1 := by omega
      simp [this, h2]
    · rw [if_neg h2]
      simp [h2]

/-- C5: for `num_steps ≥ 1`, `predict` returns
`(n^{-1/2}·K_Xin_X·U) · T^(num_steps-1) · (n^{-1/2}·Vᵗ·observable)` with
`T = n⁻¹·Vᵗ·K_YX·U` and `n` the number of rows of `U`; for
`num_steps = 1` the middle factor is the identity and the result is one
direct application of the empirical operator. -/
theorem predict_formula {n m q r : ℕ} (num_steps : ℤ)
    (U V : Matrix (Fin n) (Fin r) ℝ) (K_YX : Matrix (Fin n) (Fin n) ℝ)
    (K_Xin_X : Matrix (Fin m) (Fin n) ℝ)
    (obs_train_Y : Matrix (Fin n) (Fin q) ℝ) (h : 1 ≤ num_steps) :
    predict num_steps U V K_YX K_Xin_X obs_train_Y
      = some (((n : ℝ) ^ (-(1 / 2) : ℝ) • (K_Xin_X * U))
          * (((n : ℝ)⁻¹ • (Vᵀ * K_YX * U)) ^ (num_steps - 1).toNat)
          * ((n : ℝ) ^ (-(1 / 2) : ℝ) • (Vᵀ * obs_train_Y)))
    ∧ predict 1 U V K_YX K_Xin_X obs_train_Y
      = some (((n : ℝ) ^ (-(1 / 2) : ℝ) • (K_Xin_X * U))
          * ((n : ℝ) ^ (-(1 / 2) : ℝ) • (Vᵀ * obs_train_Y))) := by
  constructor
  · simp only [predict, matrixPower, transition_matrix]
    rw [if_pos (by omega : (0 : ℤ) ≤ num_steps - 1)]
    rfl
  · simp only [predict, matrixPower, transition_matrix]
    rw [if_pos (by omega : (0 : ℤ) ≤ 1 - 1)]
    simp only [Option.map_some', sub_self, Int.toNat_zero, pow_zero,
      Matrix.mul_one]

/-- Witness for C5 at `num_steps = 2` on concrete one-dimensional
inputs. -/
theorem predict_formula_witness :
    (1 : ℤ) ≤ 2
    ∧ (predict 2 !![(1 : ℝ)] !![(1 : ℝ)] !![(1 : ℝ)] !![(1 : ℝ)] !![(1 : ℝ)]
        = some ((((1 : ℕ) : ℝ) ^ (-(1 / 2) : ℝ) • (!![(1 : ℝ)] * !![(1 : ℝ)]))
            * ((((1 : ℕ) : ℝ)⁻¹ • (!![(1 : ℝ)]ᵀ * !![(1 : ℝ)] * !![(1 : ℝ)]))
                ^ ((2 : ℤ) - 1).toNat)
            * (((1 : ℕ) : ℝ) ^ (-(1 / 2) : ℝ) • (!![(1 : ℝ)]ᵀ * !![(1 : ℝ)])))
       ∧ predict 1 !![(1 : ℝ)] !![(1 : ℝ)] !![(1 : ℝ)] !![(1 : ℝ)] !![(1 : ℝ)]
        = some ((((1 : ℕ) : ℝ) ^ (-(1 / 2) : ℝ) • (!![(1 : ℝ)] * !![(1 : ℝ)]))
            * (((1 : ℕ) : ℝ) ^ (-(1 / 2) : ℝ) • (!![(1 : ℝ)]ᵀ * !![(1 : ℝ)])))) :=
  ⟨by decide,
   predict_formula 2 !![(1 : ℝ)] !![(1 : ℝ)] !![(1 : ℝ)] !![(1 : ℝ)]
     !![(1 : ℝ)] (by decide)⟩

/-- C6: when the small generalized eigenproblem solver of
`fit_rand_reduced_rank_regression` fails (`LinAlgError`, the `none`
oracle), the computation recovers by running the ordinary eigensolver on
`pinvh(F_0) @ F_1` and still returns a `(U, V)` pair; every other fit
strategy propagates a solver failure as a fatal error (exactly, for the
fits with no preceding assert; as some fatal error for those whose
argument checks may fire first). -/
theorem rand_rrr_fallback_on_solver_failure :
    (∀ (dimn l rank : ℕ) (F_0 F_1 : Matrix (Fin l) (Fin l) ℝ)
       (KOm KOmp : Matrix (Fin dimn) (Fin l) ℝ)
       (eig : Matrix (Fin l) (Fin l) ℝ →
         (Fin l → ℂ) × Matrix (Fin l) (Fin l) ℂ)
       (pinvh : Matrix (Fin l) (Fin l) ℝ → Matrix (Fin l) (Fin l) ℝ)
       (topkIdx : (Fin l → ℝ) → Fin rank → Fin l),
        fit_rand_reduced_rank_regression F_0 F_1 KOm KOmp none eig pinvh
            topkIdx
          = rand_rrr_postprocess F_0 KOm KOmp topkIdx
              (eig (pinvh F_0 * F_1)).1 (eig (pinvh F_0 * F_1)).2)
    ∧ (∀ (e tag : String) (rank : ℕ),
        fit_reduced_rank_regression (Except.error e) (Except.error e) tag
            rank
          = Except.error e)
    ∧ (∀ (dim : ℕ) (rank : Option ℕ) (tag e : String),
        ∃ msg, fit_principal_component_regression dim rank tag
            (Except.error e) (Except.error e) = Except.error msg)
    ∧ (∀ (dim rank : ℕ) (e : String),
        fit_rand_principal_component_regression dim rank (Except.error e)
          = Except.error e)
    ∧ (∀ (σ : Type) (tag e : String),
        ∃ msg, nystroem_solver_dispatch (σ := σ) tag (Except.error e)
            (Except.error e) = Except.error msg) := by
  refine ⟨?_, ?_, ?_, ?_, ?_⟩
  · intros
    rfl
  · intro e tag rank
    unfold fit_reduced_rank_regression
    split <;> rfl
  · intro dim rank tag e
    unfold fit_principal_component_regression
    dsimp only
    split
    · exact ⟨_, rfl⟩
    · split
      · exact ⟨_, rfl⟩
      · split
        · exact ⟨_, rfl⟩
        · exact ⟨_, rfl⟩
  · intros
    rfl
  · intro σ tag e
    unfold nystroem_solver_dispatch
    split
    · exact ⟨_, rfl⟩
    · split
      · exact ⟨_, rfl⟩
      · exact ⟨_, rfl⟩

/-- C7: in `estimator_eig`, a right-eigenvector column whose weighted
norm under the `W_X`-induced quadratic form is zero is mapped to the
zero column (also in the returned dual-basis matrix `U·vr`), and a zero
diagonal entry of `diag(Lᵗ·W_YX·R)` yields a zero rescaling factor
(never infinity or NaN), zeroing the corresponding left column. -/
theorem estimator_eig_zero_norm_guards {n r : ℕ}
    (a : EstimatorEigArgs n r) (j : Fin r) :
    (ee_norm_r a j = 0 →
       (∀ i, ee_vr_normalized a i j = 0)
       ∧ ∀ i, (estimator_eig a).2.2 i j = 0)
    ∧ (ee_norm_l a j = 0 →
       whereRecipC (ee_norm_l a j) = 0
       ∧ (∀ i, ee_vl_rescaled a i j = 0)
       ∧ ∀ i, (estimator_eig a).2.1 i j = 0) := by
  constructor
  · intro h
    have hcol : ∀ i, ee_vr_normalized a i j = 0 := by
      intro i
      simp [ee_vr_normalized, whereRecip, h]
    refine ⟨hcol, ?_⟩
    intro i
    simp [estimator_eig, Matrix.mul_apply, hcol]
  · intro h
    have hw : whereRecipC (ee_norm_l a j) = 0 := by
      simp [whereRecipC, h]
    have hcol : ∀ i, ee_vl_rescaled a i j = 0 := by
      intro i
      simp [ee_vl_rescaled, hw]
    refine ⟨hw, hcol, ?_⟩
    intro i
    simp [estimator_eig, Matrix.mul_apply, hcol]

/-- Witness for C7 on concrete one-dimensional inputs whose weighted
norm and biorthogonality diagonal are zero. -/
theorem estimator_eig_zero_norm_guards_witness :
    (ee_norm_r eeWitnessArgs 0 = 0
      ∧ ∀ i, ee_vr_normalized eeWitnessArgs i 0 = 0)
    ∧ (ee_norm_l eeWitnessArgs 0 = 0
      ∧ whereRecipC (ee_norm_l eeWitnessArgs 0) = 0) := by
  have hr : ee_norm_r eeWitnessArgs 0 = 0 := rfl
  have hl : ee_norm_l eeWitnessArgs 0 = 0 := by
    simp [ee_norm_l, ee_vl_sorted, eeWitnessArgs, Matrix.mul_apply]
  exact ⟨⟨hr, ((estimator_eig_zero_norm_guards eeWitnessArgs 0).1 hr).1⟩,
    ⟨hl, ((estimator_eig_zero_norm_guards eeWitnessArgs 0).2 hl).1⟩⟩

/-- C8: whenever they return at all, both
`fit_principal_component_regression` and
`fit_rand_principal_component_regression` return a pair whose first
component `U` is identically its second component `V`. -/
theorem pcr_returns_U_eq_V :
    (∀ (dim : ℕ) (rank : Option ℕ) (tag : String)
       (arnoldi full : Except String (List ℝ × List (List ℝ))),
        (fit_principal_component_regression dim rank tag arnoldi
            full).map Prod.fst
          = (fit_principal_component_regression dim rank tag arnoldi
              full).map Prod.snd)
    ∧ (∀ (dim rank : ℕ) (rsvd : Except String (List (List ℝ) × List ℝ)),
        (fit_rand_principal_component_regression dim rank rsvd).map Prod.fst
          = (fit_rand_principal_component_regression dim rank
              rsvd).map Prod.snd) := by
  constructor
  · intro dim rank tag arnoldi full
    unfold fit_principal_component_regression
    dsimp only
    split
    · rfl
    · split
      · cases arnoldi <;> rfl
      · split
        · cases full <;> rfl
        · rfl
  · intro dim rank rsvd
    unfold fit_rand_principal_component_regression
    cases rsvd <;> rfl

/-- C9: `spd_norm` computes exactly the weighted norm of the (possibly
complex) vector under the Hermitian symmetrization `(M + Mᵀ)/2` of the
weighting matrix: it equals the square root of the real part of
`vᴴ·((M+Mᵀ)/2)·v`, and an asymmetric `M` gives the same result as its
symmetrized form. -/
theorem spd_norm_hermitian_symmetrization {n : ℕ} (vec : Fin n → ℂ)
    (M : Matrix (Fin n) (Fin n) ℝ) :
    spd_norm vec M = spdNormSymmetrized vec M
    ∧ spd_norm vec M = spd_norm vec ((2 : ℝ)⁻¹ • (M + Mᵀ)) := by
  have hmap : ((2 : ℝ)⁻¹ • (M + Mᵀ)).map Complex.ofReal
      = (2 : ℝ)⁻¹ • (M.map Complex.ofReal + (M.map Complex.ofReal)ᵀ) := by
    apply Matrix.ext
    intro i j
    simp only [Matrix.map_apply, Matrix.smul_apply, Matrix.add_apply,
      Matrix.transpose_apply, smul_eq_mul, Complex.real_smul]
    push_cast
    ring
  have hsmul : ∀ w : Fin n → ℂ,
      vdotC vec ((2 : ℝ)⁻¹ • w) = (2 : ℝ)⁻¹ • vdotC vec w := by
    intro w
    simp only [vdotC, Pi.smul_apply, Complex.real_smul]
    rw [Finset.mul_sum]
    apply Finset.sum_congr rfl
    intro i _
    ring
  constructor
  · unfold spd_norm spdNormSymmetrized
    dsimp only
    congr 1
    rw [hmap, Matrix.smul_mulVec_assoc, hsmul, Complex.real_smul,
      Complex.re_ofReal_mul, Matrix.add_mulVec]
    norm_num
  · unfold spd_norm
    dsimp only
    congr 1
    rw [hmap, Matrix.transpose_smul, Matrix.transpose_add,
      Matrix.transpose_transpose, Matrix.smul_mulVec_assoc,
      Matrix.smul_mulVec_assoc, Matrix.add_mulVec, Matrix.add_mulVec]
    have hcollapse :
        (2 : ℝ)⁻¹ • ((M.map Complex.ofReal).mulVec vec
            + ((M.map Complex.ofReal)ᵀ).mulVec vec)
          + (2 : ℝ)⁻¹ • (((M.map Complex.ofReal)ᵀ).mulVec vec
            + (M.map Complex.ofReal).mulVec vec)
          = (M.map Complex.ofReal).mulVec vec
            + ((M.map Complex.ofReal)ᵀ).mulVec vec := by
      rw [add_comm (((M.map Complex.ofReal)ᵀ).mulVec vec)
        ((M.map Complex.ofReal).mulVec vec), ← add_smul]
      norm_num
    rw [hcollapse]

/-- C10: `regularize(M, reg, inplace=True)` returns `None` (the value of
`np.fill_diagonal`), adds `reg` times the matrix dimension to every
diagonal entry of `M`, and leaves every off-diagonal entry of `M`
unchanged. -/
theorem regularize_inplace_frame {n : ℕ} (M : Matrix (Fin n) (Fin n) ℚ)
    (reg : ℚ) :
    (regularize M reg true).1 = none
    ∧ (∀ i, (regularize M reg true).2 i i = M i i + reg * (n : ℚ))
    ∧ (∀ i j, i ≠ j → (regularize M reg true).2 i j = M i j) := by
  refine ⟨rfl, ?_, ?_⟩
  · intro i
    simp [regularize]
  · intro i j h
    simp [regularize, h]

/-- Witness for C10 on a concrete 2×2 matrix: the off-diagonal entry is
untouched by the in-place regularization. -/
theorem regularize_inplace_frame_witness :
    ((0 : Fin 2) ≠ (1 : Fin 2))
    ∧ (regularize !![(1 : ℚ), 2; 3, 4] 5 true).2 0 1
        = !![(1 : ℚ), 2; 3, 4] 0 1 :=
  ⟨by decide,
   (regularize_inplace_frame !![(1 : ℚ), 2; 3, 4] 5).2.2 0 1 (by decide)⟩

end Kooplearn
